import Mathlib

/-!
# Verification of the gulpfile.js build pipeline

A shallow embedding of `src/gulpfile.js`, a gulp-based static-site build
configuration, together with proofs about the claims of the specification.

The embedding has three layers:

1. **Pipeline composition** (`Task`, `Stage`, `Pipeline`, `PipeRun`): the
   repository composes its tasks with gulp's `series` / `parallel`
   combinators.  The program only ever applies `series` to a flat list of
   plain tasks and `parallel`-groups of plain tasks, so a pipeline is a list
   of stages, each stage being a single task or a group of tasks run
   concurrently.  A run of a pipeline is a trace of start/finish events; a
   stage contributes an interleaving of its tasks' traces, and `series`
   concatenates stage traces (gulp's documented combinator semantics).

2. **Per-task dataflow** (`copy`, `images`, `html`, `style`, `buildJs`):
   each gulp task is a `src(glob) |> transforms |> dest(dir)` stream.  We
   model a vinyl file as a path (list of segments) plus byte contents, glob
   matching over path segments, and each delegated plugin as a function on
   byte contents (a parameter where the plugin's behaviour is irrelevant,
   with its documented contract as a hypothesis where it matters).

3. **Filesystem effect** (`cleanFs`, `buildStep`): `clean` removes the
   `build` subtree; the whole build pipeline maps a filesystem to the
   cleaned filesystem plus the files written by the five build tasks.
-/

namespace Gulpfile

/-- The named tasks of `src/gulpfile.js` (source function names):
`clean`, `copy`, `html` (TemplateTask), `style` (StyleTask),
`images` (ImageTask), `buildJs` (ScriptTask), `reload` (ReloadTask),
`deploy` (DeployTask), `serve` (ServeTask). -/
inductive Task where
  | clean | copy | html | style | images | buildJs | reload | deploy | serve
deriving DecidableEq, Repr

/-- A start or finish event of a task, the observable points of a run. -/
inductive Event where
  | start (t : Task)
  | finish (t : Task)
deriving DecidableEq, Repr

/-- A stage of a `series(...)` composition: either a single task or a
`parallel(...)` group of tasks. -/
inductive Stage where
  | single (t : Task)
  | par (ts : List Task)
deriving DecidableEq, Repr

/-- A pipeline is a `series` of stages, the only shape the gulpfile uses. -/
abbrev Pipeline := List Stage

/-- The tasks belonging to a stage. -/
def stageTasks : Stage → List Task
  | .single t => [t]
  | .par ts => ts

/-- The trace of one atomic task: it starts, then it signals completion
(success or tolerated error). -/
def taskTrace (t : Task) : List Event := [.start t, .finish t]

/-- `Interleave ls tr`: `tr` is an interleaving of the traces in `ls`,
each trace's internal order preserved.  This is the concurrency model of a
`parallel` stage: single-threaded cooperative scheduling interleaves the
tasks' events in some order. -/
inductive Interleave : List (List Event) → List Event → Prop where
  | done : ∀ {ls}, (∀ l ∈ ls, l = []) → Interleave ls []
  | step : ∀ {ls1 ls2 tr} (x : Event) (l : List Event),
      Interleave (ls1 ++ l :: ls2) tr →
      Interleave (ls1 ++ (x :: l) :: ls2) (x :: tr)

/-- Valid traces of one stage: a single task contributes its own trace, a
`parallel` group contributes any interleaving of its members' traces (gulp's
`parallel` starts all members and waits for all to settle). -/
def StageRun : Stage → List Event → Prop
  | .single t, tr => tr = taskTrace t
  | .par ts, tr => Interleave (ts.map taskTrace) tr

/-- Valid traces of a pipeline: `series` runs each stage to completion
before the next one starts, so the trace is the concatenation of one valid
trace per stage, in order. -/
inductive PipeRun : Pipeline → List Event → Prop where
  | nil : PipeRun [] []
  | cons : ∀ {s ps tr1 tr2}, StageRun s tr1 → PipeRun ps tr2 →
      PipeRun (s :: ps) (tr1 ++ tr2)

/-- `Precedes e1 e2 tr`: event `e1` occurs strictly before event `e2`
somewhere in the trace `tr`. -/
def Precedes (e1 e2 : Event) (tr : List Event) : Prop :=
  ∃ l1 l2 l3, tr = l1 ++ e1 :: (l2 ++ e2 :: l3)

/-- `exports.build` (gulpfile lines 190–194): `series(clean,
parallel(copy, images), parallel(html, style, buildJs))`. -/
def exportsBuild : Pipeline :=
  [Stage.single Task.clean,
   Stage.par [Task.copy, Task.images],
   Stage.par [Task.html, Task.style, Task.buildJs]]

/-- `exports.default` (gulpfile lines 196–201): the same three stages
followed by `serve` as the final stage. -/
def exportsDefault : Pipeline :=
  [Stage.single Task.clean,
   Stage.par [Task.copy, Task.images],
   Stage.par [Task.html, Task.style, Task.buildJs],
   Stage.single Task.serve]

/-- The fully sequential trace of a stage (tasks one after another). -/
def seqStageTrace : Stage → List Event
  | .single t => taskTrace t
  | .par ts => (ts.map taskTrace).flatten

/-- The fully sequential trace of a pipeline. -/
def seqPipeTrace (p : Pipeline) : List Event := (p.map seqStageTrace).flatten

/-! ## Vinyl files, globs, and the per-task streams -/

/-- Byte contents of a file. -/
abbrev Bytes := List Nat

/-- A vinyl file: a filesystem path, as a list of segments, and its byte
contents. -/
structure VFile where
  path : List String
  contents : Bytes
deriving DecidableEq, Repr

/-- A filesystem: the list of files currently present. -/
abbrev FS := List VFile

/-- One segment of a glob pattern, covering exactly the pattern forms the
gulpfile uses: a literal segment, a bare `*`, a `*.{e1,...,en}` extension
wildcard (with `*.e` the one-extension case), and the `**` globstar. -/
inductive SegPat where
  | lit (s : String)
  | anySeg
  | anyWithExt (exts : List String)
  | globstar
deriving DecidableEq, Repr

/-- A glob pattern over path segments. -/
abbrev Glob := List SegPat

/-- Whether the string `suf` is a suffix of the string `s`. -/
def strEndsWith (suf s : String) : Bool := suf.data.isSuffixOf s.data

/-- Whether one non-globstar pattern segment matches one path segment. -/
def segMatch : SegPat → String → Bool
  | .lit s, seg => seg == s
  | .anySeg, _ => true
  | .anyWithExt exts, seg => exts.any (fun e => strEndsWith ("." ++ e) seg)
  | .globstar, _ => true

/-- Glob matching over path segments with explicit fuel; `**` matches zero
or more segments.  The fuel only bounds the recursion depth: it is never
exhausted when it starts at `ps.length + segs.length` (each step removes at
least one pattern or one segment). -/
def globMatchAux : Nat → Glob → List String → Bool
  | _, [], [] => true
  | _, [], _ :: _ => false
  | 0, _ :: _, _ => false
  | n + 1, .globstar :: ps, segs =>
      globMatchAux n ps segs ||
        (match segs with
         | [] => false
         | _ :: rest => globMatchAux n (.globstar :: ps) rest)
  | _, _ :: _, [] => false
  | n + 1, p :: ps, s :: rest => segMatch p s && globMatchAux n ps rest

/-- Glob matching over path segments. -/
def globMatch (ps : Glob) (segs : List String) : Bool :=
  globMatchAux (ps.length + segs.length) ps segs

/-- `src('source/fonts/**/*.{woff,woff2,eot,ttf}')` — the `copy` glob. -/
def fontsGlob : Glob :=
  [.lit "source", .lit "fonts", .globstar,
   .anyWithExt ["woff", "woff2", "eot", "ttf"]]

/-- `src('source/pages/*.pug')` — the `html` task's input glob
(one directory level, non-recursive). -/
def pagesGlob : Glob := [.lit "source", .lit "pages", .anyWithExt ["pug"]]

/-- `src('source/less/style.less')` — the `style` task's entry file. -/
def styleEntryGlob : Glob := [.lit "source", .lit "less", .lit "style.less"]

/-- `src('source/img/**/*.{png,jpg,svg}')` — the `images` task's glob
(any depth below `source/img`). -/
def imagesGlob : Glob :=
  [.lit "source", .lit "img", .globstar, .anyWithExt ["png", "jpg", "svg"]]

/-- `src('source/js/script.js')` — the `buildJs` task's entry file. -/
def jsEntryGlob : Glob := [.lit "source", .lit "js", .lit "script.js"]

/-- Watched glob `'source/pages/**/*.pug'` (serve, line 172). -/
def pagesWatchGlob : Glob :=
  [.lit "source", .lit "pages", .globstar, .anyWithExt ["pug"]]

/-- Watched glob `'source/pug/**/*.pug'` (serve, line 172). -/
def pugWatchGlob : Glob :=
  [.lit "source", .lit "pug", .globstar, .anyWithExt ["pug"]]

/-- Watched glob `'source/less/**/*.less'` (serve, line 176). -/
def lessWatchGlob : Glob :=
  [.lit "source", .lit "less", .globstar, .anyWithExt ["less"]]

/-- Watched glob `'source/js/**/*.js'` (serve, line 180). -/
def jsWatchGlob : Glob :=
  [.lit "source", .lit "js", .globstar, .anyWithExt ["js"]]

/-- Watched glob `'source/img/*'` (serve, line 184): a single `*` segment,
so it covers only the top level of `source/img`. -/
def imgWatchGlob : Glob := [.lit "source", .lit "img", .anySeg]

/-- `src(glob)`: the files of the filesystem matched by the glob. -/
def srcGlob (g : Glob) (fs : FS) : FS :=
  fs.filter (fun f => globMatch g f.path)

/-- The part of a filename before its last dot (the whole name when there
is no dot). -/
def stemOf (s : String) : String :=
  if ('.' ∈ s.data) then
    String.mk (((s.data.reverse.dropWhile (fun c => c != '.')).drop 1).reverse)
  else s

/-- The extension of a filename (the part after its last dot), if any. -/
def extOf (s : String) : Option String :=
  if ('.' ∈ s.data) then
    some (String.mk ((s.data.reverse.takeWhile (fun c => c != '.')).reverse))
  else none

/-- Replace a filename's extension (used for `.pug` → `.html` by gulp-pug
and `.less` → `.css` by gulp-less). -/
def setExt (e s : String) : String := stemOf s ++ "." ++ e

/-- gulp-rename with a suffix option: the suffix is inserted between the
basename and the extension (`style.css` ↦ `style.min.css`). -/
def renameSuffix (suf s : String) : String :=
  match extOf s with
  | none => s ++ suf
  | some e => stemOf s ++ suf ++ "." ++ e

/-- Apply a function to the last segment of a path (the filename). -/
def mapLast (g : String → String) : List String → List String
  | [] => []
  | [x] => [g x]
  | x :: xs => x :: mapLast g xs

/-- gulpfile `copy` (lines 28–37):
`src('source/fonts/**/*.{woff,woff2,eot,ttf}', base 'source')` piped to
`dest('build')`.  `dest` re-roots each matched file at `build`, keeping its
path relative to the declared base `source` (one leading segment dropped),
without touching the contents. -/
def copy (fs : FS) : FS :=
  (srcGlob fontsGlob fs).map (fun f => ⟨"build" :: f.path.drop 1, f.contents⟩)

/-- Modelled from the spec: the delegated optimizer (gulp-imagemin with
optipng level 3, progressive jpegtran, and svgo keeping viewBox and long
hex colors) is best-effort per file — a file whose optimization fails is
passed through unchanged rather than failing the stream.  `opt` is the
per-file optimizer; `none` models an optimization failure on that file. -/
def imageminBestEffort (opt : Bytes → Option Bytes) (c : Bytes) : Bytes :=
  (opt c).getD c

/-- gulpfile `images` (lines 82–95):
`src('source/img/**/*.{png,jpg,svg}')` (default base `source/img`) piped
through the optimizer to `dest('build/img')`, mirroring each file's path
relative to `source/img`. -/
def images (opt : Bytes → Option Bytes) (fs : FS) : FS :=
  (srcGlob imagesGlob fs).map
    (fun f => ⟨"build" :: "img" :: f.path.drop 2,
               imageminBestEffort opt f.contents⟩)

/-- gulpfile `html` (lines 40–50): `src('source/pages/*.pug')` (default
base `source/pages`) piped through plumber, pug (`pugC`, which renames
`.pug` to `.html`) and htmlprettify (`pretty`) to `dest('build')`, then to
`server.stream()`. -/
def html (pugC pretty : Bytes → Bytes) (fs : FS) : FS :=
  (srcGlob pagesGlob fs).map
    (fun f => ⟨"build" :: (mapLast (setExt "html") f.path).drop 2,
               pretty (pugC f.contents)⟩)

/-- gulpfile `style` (lines 62–76): `src('source/less/style.less')`
(default base `source/less`) piped through plumber, less (`lessC`, which
renames `.less` to `.css`), postcss/autoprefixer (`vendor`), then
`dest('build/css')` writes the unminified file; the stream continues
through csso (`cssoC`) and rename with suffix `.min`, and a second
`dest('build/css')` writes the minified file; finally `server.stream()`.
The returned list keeps the two writes in stream order: the unminified
file first, the minified file second. -/
def style (lessC vendor cssoC : Bytes → Bytes) (fs : FS) : FS :=
  ((srcGlob styleEntryGlob fs).map (fun f =>
    let cssPath := mapLast (setExt "css") f.path
    let u : VFile := ⟨"build" :: "css" :: cssPath.drop 2,
                      vendor (lessC f.contents)⟩
    let m : VFile := ⟨"build" :: "css" :: (mapLast (renameSuffix ".min") cssPath).drop 2,
                      cssoC u.contents⟩
    [u, m])).flatten

/-- gulpfile `buildJs` (lines 98–141): `src('source/js/script.js')` piped
through plumber and webpack-stream (`bundle`; the webpack config fixes the
output filename to `script.js` and disables webpack's own minification),
then `dest('build/js')` writes the unminified bundle; the stream continues
through uglify (`uglifyC`) and rename with suffix `.min`, and a second
`dest('build/js')` writes the minified bundle.  No `server.stream()` step
appears in this task. -/
def buildJs (bundle uglifyC : Bytes → Bytes) (fs : FS) : FS :=
  ((srcGlob jsEntryGlob fs).map (fun f =>
    let b : VFile := ⟨["build", "js", "script.js"], bundle f.contents⟩
    let m : VFile := ⟨["build", "js", renameSuffix ".min" "script.js"],
                      uglifyC (bundle f.contents)⟩
    [b, m])).flatten

/-- Whether a task's stream ends with `.pipe(server.stream())`, the
live-reload change notification: `html` (line 49) and `style` (line 75)
do; no other task does. -/
def streamsToServer : Task → Bool
  | .html => true
  | .style => true
  | _ => false

/-- The paths a task deletes: `clean` (line 24) removes the `build` tree
via `del('build')`; no other task deletes anything. -/
def taskDeletes : Task → List (List String)
  | .clean => [["build"]]
  | _ => []

/-! ## The serve task's server and watch registrations -/

/-- The filesystem events a watch rule fires on (chokidar names: `unlink`
is the file-removal event; `all` stands for every event kind). -/
inductive WatchEvent where
  | add | change | unlink | all
deriving DecidableEq, Repr

/-- One `watch(globs, options, series(...))` registration: the watched
globs, the events it fires on, its debounce `delay` in milliseconds, and
the tasks of the `series` it triggers, in order. -/
structure WatchRule where
  globs : List Glob
  events : List WatchEvent
  delay : Nat
  tasks : List Task
deriving DecidableEq, Repr

/-- The static server plus the watch registrations made by `serve`. -/
structure ServeConfig where
  serverRoot : String
  startPath : String
  rules : List WatchRule
deriving DecidableEq, Repr

/-- gulpfile `serve` (lines 161–188): `server.init` on root `'build/'`
with start path `'index.html'`, followed by the four `watch`
registrations, in source order. -/
def serve : ServeConfig :=
  { serverRoot := "build/"
    startPath := "index.html"
    rules :=
      [ { globs := [pagesWatchGlob, pugWatchGlob]
          events := [.add, .change, .unlink]
          delay := 50
          tasks := [.html, .reload] },
        { globs := [lessWatchGlob]
          events := [.add, .change, .unlink]
          delay := 50
          tasks := [.style, .reload] },
        { globs := [jsWatchGlob]
          events := [.add, .change, .unlink]
          delay := 50
          tasks := [.buildJs, .reload] },
        { globs := [imgWatchGlob]
          events := [.all]
          delay := 50
          tasks := [.images, .reload] } ] }

/-- A filesystem event on path `p` matches a watch rule when some glob of
the rule matches `p`. -/
def ruleMatches (r : WatchRule) (p : List String) : Bool :=
  r.globs.any (fun g => globMatch g p)

/-- The selection criterion of claim C6 as the specification words it
(not as the source implements it): a file whose path lies anywhere under
the source tree and whose filename carries one of the font-file
extensions woff, woff2, eot, ttf. -/
def specFontSelect (p : List String) : Bool :=
  (p.headD "" == "source") &&
    (["woff", "woff2", "eot", "ttf"].any
      (fun e => strEndsWith ("." ++ e) (p.getLastD "")))

/-! ## Filesystem effect of clean and of a full build -/

/-- Whether a path lies inside the output directory `build`. -/
def underBuild (p : List String) : Bool := p.headD "" == "build"

/-- Removal of the `build` subtree from a filesystem. -/
def cleanFs (fs : FS) : FS := fs.filter (fun f => !underBuild f.path)

/-- gulpfile `clean` (lines 23–25): `return del('build')`.  Modelled from
the spec: the delegated `del` package removes the `build` subtree and
settles once removal has finished, or fails with an error; `clean`
installs no error handler, so the error is returned as-is.  `err = none`
models a deletion that succeeds. -/
def clean (err : Option String) (fs : FS) : Except String FS :=
  match err with
  | some e => Except.error e
  | none => Except.ok (cleanFs fs)

/-- Sequential composition of filesystem-effect tasks: each task runs on
the previous task's result, and the first error stops the run. -/
def runSeries (ts : List (FS → Except String FS)) (fs : FS) :
    Except String FS :=
  match ts with
  | [] => Except.ok fs
  | t :: rest =>
      match t fs with
      | Except.error e => Except.error e
      | Except.ok fs2 => runSeries rest fs2

/-- The delegated tool functions a full build is parametrized by. -/
structure Tools where
  opt : Bytes → Option Bytes
  pugC : Bytes → Bytes
  pretty : Bytes → Bytes
  lessC : Bytes → Bytes
  vendor : Bytes → Bytes
  cssoC : Bytes → Bytes
  bundle : Bytes → Bytes
  uglifyC : Bytes → Bytes

/-- The files written by the five build tasks of `exports.build` on a
given filesystem. -/
def buildOutputs (T : Tools) (fs : FS) : FS :=
  copy fs ++ images T.opt fs ++ html T.pugC T.pretty fs ++
    style T.lessC T.vendor T.cssoC fs ++ buildJs T.bundle T.uglifyC fs

/-- The filesystem effect of one successful run of `exports.build`:
`clean` removes the `build` subtree, then the five build tasks read the
source tree and write their outputs (all under `build`, in pairwise
disjoint subtrees, so the result is the cleaned tree plus the written
files). -/
def buildStep (T : Tools) (fs : FS) : FS :=
  cleanFs fs ++ buildOutputs T (cleanFs fs)

theorem interleave_mem {ls tr} (h : Interleave ls tr) :
    ∀ l ∈ ls, ∀ e ∈ l, e ∈ tr := by
  induction h with
  | done hls =>
      intro l hl e he
      rw [hls l hl] at he
      exact absurd he (List.not_mem_nil e)
  | step x l0 _ ih =>
      intro l hl e he
      rcases List.mem_append.mp hl with h1 | h2
      · exact List.mem_cons_of_mem x
          (ih l (List.mem_append_left _ h1) e he)
      · rcases List.mem_cons.mp h2 with rfl | h3
        · rcases List.mem_cons.mp he with rfl | he0
          · exact List.mem_cons_self e _
          · exact List.mem_cons_of_mem x
              (ih l0 (List.mem_append_right _ (List.mem_cons_self l0 _)) e he0)
        · exact List.mem_cons_of_mem x
            (ih l (List.mem_append_right _ (List.mem_cons_of_mem l0 h3)) e he)

theorem stageRun_mem {s tr t} (h : StageRun s tr) (ht : t ∈ stageTasks s) :
    Event.start t ∈ tr ∧ Event.finish t ∈ tr := by
  cases s with
  | single t0 =>
      simp only [stageTasks, List.mem_singleton] at ht
      subst ht
      simp only [StageRun] at h
      subst h
      exact ⟨List.mem_cons_self _ _, by simp [taskTrace]⟩
  | par ts =>
      simp only [StageRun] at h
      simp only [stageTasks] at ht
      have hmem := List.mem_map_of_mem taskTrace ht
      constructor
      · exact interleave_mem h (taskTrace t) hmem (Event.start t)
          (List.mem_cons_self _ _)
      · exact interleave_mem h (taskTrace t) hmem (Event.finish t)
          (by simp [taskTrace])

theorem pipeRun_mem {p tr} (h : PipeRun p tr) :
    ∀ (j : Nat) (sj : Stage) (t : Task), p[j]? = some sj → t ∈ stageTasks sj →
      Event.start t ∈ tr ∧ Event.finish t ∈ tr := by
  induction h with
  | nil => intro j sj t hj; simp at hj
  | cons hs _ ih =>
      intro j sj t hj ht
      cases j with
      | zero =>
          simp only [List.getElem?_cons_zero, Option.some.injEq] at hj
          subst hj
          have := stageRun_mem hs ht
          exact ⟨List.mem_append_left _ this.1, List.mem_append_left _ this.2⟩
      | succ k =>
          simp only [List.getElem?_cons_succ] at hj
          have := ih k sj t hj ht
          exact ⟨List.mem_append_right _ this.1, List.mem_append_right _ this.2⟩

theorem precedes_append_left {e1 e2 tr} (pre : List Event)
    (h : Precedes e1 e2 tr) : Precedes e1 e2 (pre ++ tr) := by
  obtain ⟨l1, l2, l3, rfl⟩ := h
  exact ⟨pre ++ l1, l2, l3, by simp⟩

theorem precedes_of_mem_mem {e1 e2 : Event} {l r : List Event}
    (h1 : e1 ∈ l) (h2 : e2 ∈ r) : Precedes e1 e2 (l ++ r) := by
  obtain ⟨a, b, rfl⟩ := List.append_of_mem h1
  obtain ⟨c, d, rfl⟩ := List.append_of_mem h2
  exact ⟨a, b ++ c, d, by simp⟩

/-- In any valid trace of a `series`-of-stages pipeline, every task of an
earlier stage finishes before any task of a later stage starts. -/
theorem pipeRun_barrier {p tr} (h : PipeRun p tr) :
    ∀ (i j : Nat) (si sj : Stage) (t1 t2 : Task), i < j → p[i]? = some si → p[j]? = some sj →
      t1 ∈ stageTasks si → t2 ∈ stageTasks sj →
      Precedes (Event.finish t1) (Event.start t2) tr := by
  induction h with
  | nil => intro i j si sj t1 t2 _ hi; simp at hi
  | cons hs hrest ih =>
      intro i j si sj t1 t2 hij hi hj ht1 ht2
      cases i with
      | zero =>
          simp only [List.getElem?_cons_zero, Option.some.injEq] at hi
          subst hi
          cases j with
          | zero => exact absurd hij (lt_irrefl 0)
          | succ m =>
              simp only [List.getElem?_cons_succ] at hj
              exact precedes_of_mem_mem (stageRun_mem hs ht1).2
                (pipeRun_mem hrest m sj t2 hj ht2).1
      | succ k =>
          cases j with
          | zero => exact absurd hij (by omega)
          | succ m =>
              simp only [List.getElem?_cons_succ] at hi hj
              exact precedes_append_left _
                (ih k m si sj t1 t2 (by omega) hi hj ht1 ht2)

theorem interleave_nil_cons {ls tr} (h : Interleave ls tr) :
    Interleave ([] :: ls) tr := by
  induction h with
  | done hls =>
      exact Interleave.done (by
        intro l hl
        rcases List.mem_cons.mp hl with rfl | h2
        · rfl
        · exact hls l h2)
  | step x l0 _ ih =>
      exact @Interleave.step ([] :: _) _ _ x l0 ih

theorem interleave_cons {ls tr} (l : List Event) (h : Interleave ls tr) :
    Interleave (l :: ls) (l ++ tr) := by
  induction l with
  | nil => exact interleave_nil_cons h
  | cons x xs ih => exact @Interleave.step [] _ _ x xs ih

theorem interleave_join (ls : List (List Event)) : Interleave ls ls.flatten := by
  induction ls with
  | nil => exact Interleave.done (by intro l hl; simp at hl)
  | cons l ls ih => exact interleave_cons l ih

theorem stageRun_seqStageTrace (s : Stage) : StageRun s (seqStageTrace s) := by
  cases s with
  | single t => rfl
  | par ts => exact interleave_join (ts.map taskTrace)

theorem pipeRun_seqPipeTrace (p : Pipeline) : PipeRun p (seqPipeTrace p) := by
  induction p with
  | nil => exact PipeRun.nil
  | cons s ps ih =>
      exact PipeRun.cons (stageRun_seqStageTrace s) ih

/-- **C1.** `exports.build` is the series of the stage `clean`, then the
parallel stage `copy`/`images`, then the parallel stage
`html`/`style`/`buildJs`; `exports.default` is the same three stages with
`serve` appended as the terminal stage; and in every valid run of either
pipeline, no task of a later stage starts before every task of each earlier
stage has signaled completion. -/
theorem build_pipeline_stage_barrier :
    exportsBuild =
      [Stage.single Task.clean,
       Stage.par [Task.copy, Task.images],
       Stage.par [Task.html, Task.style, Task.buildJs]] ∧
    exportsDefault = exportsBuild ++ [Stage.single Task.serve] ∧
    (∀ tr, PipeRun exportsBuild tr →
      ∀ (i j : Nat) (si sj : Stage) (t1 t2 : Task), i < j →
        exportsBuild[i]? = some si → exportsBuild[j]? = some sj →
        t1 ∈ stageTasks si → t2 ∈ stageTasks sj →
        Precedes (Event.finish t1) (Event.start t2) tr) ∧
    (∀ tr, PipeRun exportsDefault tr →
      ∀ (i j : Nat) (si sj : Stage) (t1 t2 : Task), i < j →
        exportsDefault[i]? = some si → exportsDefault[j]? = some sj →
        t1 ∈ stageTasks si → t2 ∈ stageTasks sj →
        Precedes (Event.finish t1) (Event.start t2) tr) := by
  refine ⟨rfl, rfl, ?_, ?_⟩
  · intro tr h
    exact fun i j si sj t1 t2 hij hi hj ht1 ht2 =>
      pipeRun_barrier h i j si sj t1 t2 hij hi hj ht1 ht2
  · intro tr h
    exact fun i j si sj t1 t2 hij hi hj ht1 ht2 =>
      pipeRun_barrier h i j si sj t1 t2 hij hi hj ht1 ht2

/-- Witness for C1 at a concrete run: in the sequential trace of
`exports.build`, `clean` finishes before `style` starts, and in the
sequential trace of `exports.default`, `buildJs` finishes before `serve`
starts. -/
theorem build_pipeline_stage_barrier_witness :
    Precedes (Event.finish Task.clean) (Event.start Task.style)
      (seqPipeTrace exportsBuild) ∧
    Precedes (Event.finish Task.buildJs) (Event.start Task.serve)
      (seqPipeTrace exportsDefault) := by
  constructor
  · exact build_pipeline_stage_barrier.2.2.1 (seqPipeTrace exportsBuild)
      (pipeRun_seqPipeTrace exportsBuild) 0 2 _ _ Task.clean Task.style
      (by omega) rfl rfl (by decide) (by decide)
  · exact build_pipeline_stage_barrier.2.2.2 (seqPipeTrace exportsDefault)
      (pipeRun_seqPipeTrace exportsDefault) 2 3 _ _ Task.buildJs Task.serve
      (by omega) rfl rfl (by decide) (by decide)

/-! ## Glob matching lemmas -/

theorem globMatchAux_congr : ∀ (n m : Nat) (ps : Glob) (segs : List String),
    ps.length + segs.length ≤ n → ps.length + segs.length ≤ m →
    globMatchAux n ps segs = globMatchAux m ps segs := by
  intro n
  induction n with
  | zero =>
      intro m ps segs hn _
      cases ps with
      | nil =>
          cases segs with
          | nil => cases m <;> rfl
          | cons s rest => cases m <;> rfl
      | cons p ps' => simp only [List.length_cons] at hn; omega
  | succ k ih =>
      intro m ps segs hn hm
      cases ps with
      | nil =>
          cases segs with
          | nil => cases m <;> rfl
          | cons s rest => cases m <;> rfl
      | cons p ps' =>
          cases m with
          | zero => simp only [List.length_cons] at hm; omega
          | succ m' =>
              cases p with
              | globstar =>
                  cases segs with
                  | nil =>
                      simp only [globMatchAux]
                      rw [ih m' ps' []
                        (by simp only [List.length_cons] at *; omega)
                        (by simp only [List.length_cons] at *; omega)]
                  | cons s rest =>
                      simp only [globMatchAux]
                      rw [ih m' ps' (s :: rest)
                        (by simp only [List.length_cons] at *; omega)
                        (by simp only [List.length_cons] at *; omega),
                        ih m' (.globstar :: ps') rest
                        (by simp only [List.length_cons] at *; omega)
                        (by simp only [List.length_cons] at *; omega)]
              | lit s0 =>
                  cases segs with
                  | nil => rfl
                  | cons s rest =>
                      simp only [globMatchAux]
                      rw [ih m' ps' rest
                        (by simp only [List.length_cons] at *; omega)
                        (by simp only [List.length_cons] at *; omega)]
              | anySeg =>
                  cases segs with
                  | nil => rfl
                  | cons s rest =>
                      simp only [globMatchAux]
                      rw [ih m' ps' rest
                        (by simp only [List.length_cons] at *; omega)
                        (by simp only [List.length_cons] at *; omega)]
              | anyWithExt es =>
                  cases segs with
                  | nil => rfl
                  | cons s rest =>
                      simp only [globMatchAux]
                      rw [ih m' ps' rest
                        (by simp only [List.length_cons] at *; omega)
                        (by simp only [List.length_cons] at *; omega)]

theorem globMatch_eq_aux (n : Nat) (ps : Glob) (segs : List String)
    (h : ps.length + segs.length ≤ n) :
    globMatch ps segs = globMatchAux n ps segs :=
  globMatchAux_congr (ps.length + segs.length) n ps segs le_rfl h

theorem globMatch_cons (p : SegPat) (hp : p ≠ SegPat.globstar) (x : String)
    (ps : Glob) (xs : List String) :
    globMatch (p :: ps) (x :: xs) = (segMatch p x && globMatch ps xs) := by
  rw [globMatch_eq_aux (ps.length + xs.length + 1 + 1) _ _
    (by simp only [List.length_cons]; omega)]
  cases p with
  | globstar => exact absurd rfl hp
  | lit s0 =>
      simp only [globMatchAux]
      rw [← globMatch_eq_aux (ps.length + xs.length + 1) ps xs (by omega)]
  | anySeg =>
      simp only [globMatchAux]
      rw [← globMatch_eq_aux (ps.length + xs.length + 1) ps xs (by omega)]
  | anyWithExt es =>
      simp only [globMatchAux]
      rw [← globMatch_eq_aux (ps.length + xs.length + 1) ps xs (by omega)]

theorem globMatch_cons_nil (p : SegPat) (hp : p ≠ SegPat.globstar)
    (ps : Glob) : globMatch (p :: ps) [] = false := by
  cases p with
  | globstar => exact absurd rfl hp
  | lit s0 => rfl
  | anySeg => rfl
  | anyWithExt es => rfl

theorem globMatchAux_globstar_skip :
    ∀ (pre : List String) (n : Nat) (ps : Glob) (segs : List String),
    globMatch ps segs = true → ps.length + 1 + (pre.length + segs.length) ≤ n →
    globMatchAux n (SegPat.globstar :: ps) (pre ++ segs) = true := by
  intro pre
  induction pre with
  | nil =>
      intro n ps segs h hb
      cases n with
      | zero => omega
      | succ m =>
          cases segs with
          | nil =>
              simp only [List.nil_append, globMatchAux]
              rw [← globMatch_eq_aux m ps [] (by simp at hb ⊢; omega), h]
              rfl
          | cons s rest =>
              simp only [List.nil_append, globMatchAux]
              rw [← globMatch_eq_aux m ps (s :: rest)
                (by simp only [List.length_cons, List.length_nil] at hb ⊢; omega), h]
              simp only [Bool.true_or]
  | cons x pre' ih =>
      intro n ps segs h hb
      cases n with
      | zero => omega
      | succ m =>
          simp only [List.cons_append, globMatchAux, List.append_eq]
          rw [ih m ps segs h (by simp only [List.length_cons] at hb; omega)]
          simp only [Bool.or_true]

/-- A `**` pattern absorbs any run of leading segments. -/
theorem globMatch_globstar_skip (ps : Glob) (pre segs : List String)
    (h : globMatch ps segs = true) :
    globMatch (SegPat.globstar :: ps) (pre ++ segs) = true := by
  unfold globMatch
  exact globMatchAux_globstar_skip pre _ ps segs h
    (by simp only [List.length_cons, List.length_append]; omega)

/-- A globstar-free pattern never matches a path with more segments than
the pattern has. -/
theorem globMatchAux_no_globstar_short :
    ∀ (n : Nat) (ps : Glob) (segs : List String),
    SegPat.globstar ∉ ps → ps.length < segs.length →
    globMatchAux n ps segs = false := by
  intro n
  induction n with
  | zero =>
      intro ps segs _ hl
      cases ps with
      | nil =>
          cases segs with
          | nil => simp at hl
          | cons s rest => rfl
      | cons p ps' => cases p <;> cases segs <;> rfl
  | succ m ih =>
      intro ps segs hng hl
      cases ps with
      | nil =>
          cases segs with
          | nil => simp at hl
          | cons s rest => rfl
      | cons p ps' =>
          cases segs with
          | nil => simp at hl
          | cons s rest =>
              cases p with
              | globstar => exact absurd (List.mem_cons_self _ _) hng
              | lit s0 =>
                  simp only [globMatchAux]
                  rw [ih ps' rest (fun hm => hng (List.mem_cons_of_mem _ hm))
                    (by simp only [List.length_cons] at hl ⊢; omega)]
                  simp only [Bool.and_false]
              | anySeg =>
                  simp only [globMatchAux]
                  rw [ih ps' rest (fun hm => hng (List.mem_cons_of_mem _ hm))
                    (by simp only [List.length_cons] at hl ⊢; omega)]
                  simp only [Bool.and_false]
              | anyWithExt es =>
                  simp only [globMatchAux]
                  rw [ih ps' rest (fun hm => hng (List.mem_cons_of_mem _ hm))
                    (by simp only [List.length_cons] at hl ⊢; omega)]
                  simp only [Bool.and_false]

theorem globMatch_no_globstar_short (ps : Glob) (segs : List String)
    (hng : SegPat.globstar ∉ ps) (hl : ps.length < segs.length) :
    globMatch ps segs = false := by
  unfold globMatch
  exact globMatchAux_no_globstar_short _ ps segs hng hl

/-- Every path matched by a glob rooted at the literal segment `source`
lies outside the `build` output tree. -/
theorem globMatch_source_not_build (ps : Glob) (p : List String)
    (h : globMatch (SegPat.lit "source" :: ps) p = true) :
    underBuild p = false := by
  cases p with
  | nil => rw [globMatch_cons_nil _ (by simp) ps] at h; exact absurd h (by simp)
  | cons x xs =>
      rw [globMatch_cons _ (by simp) x ps xs] at h
      simp only [segMatch, Bool.and_eq_true, beq_iff_eq] at h
      obtain ⟨rfl, -⟩ := h
      rfl

/-- A path matches the `html` input glob `source/pages/*.pug` exactly when
it is a top-level file of `source/pages` with the `.pug` extension. -/
theorem pagesGlob_shape (p : List String)
    (h : globMatch pagesGlob p = true) :
    ∃ nm, p = ["source", "pages", nm] ∧ strEndsWith ".pug" nm = true := by
  match p with
  | [] => exact absurd h (by decide)
  | [x] =>
      rw [show pagesGlob =
        SegPat.lit "source" :: [SegPat.lit "pages", SegPat.anyWithExt ["pug"]]
        from rfl, globMatch_cons _ (by simp) x _ [],
        globMatch_cons_nil _ (by simp) _] at h
      exact absurd h (by simp)
  | [x, y] =>
      rw [show pagesGlob =
        SegPat.lit "source" :: [SegPat.lit "pages", SegPat.anyWithExt ["pug"]]
        from rfl, globMatch_cons _ (by simp) x _ [y],
        globMatch_cons _ (by simp) y _ [],
        globMatch_cons_nil _ (by simp) _] at h
      exact absurd h (by simp)
  | [x, y, z] =>
      rw [show pagesGlob =
        SegPat.lit "source" :: [SegPat.lit "pages", SegPat.anyWithExt ["pug"]]
        from rfl, globMatch_cons _ (by simp) x _ [y, z],
        globMatch_cons _ (by simp) y _ [z],
        globMatch_cons _ (by simp) z _ []] at h
      simp only [segMatch, List.any_cons, List.any_nil, Bool.or_false,
        Bool.and_eq_true, beq_iff_eq] at h
      obtain ⟨rfl, rfl, hz, -⟩ := h
      exact ⟨z, rfl, hz⟩
  | x :: y :: z :: w :: rest =>
      rw [globMatch_no_globstar_short pagesGlob _ (by decide)
        (by simp only [pagesGlob, List.length_cons, List.length_nil]; omega)] at h
      exact absurd h (by simp)

/-! ## Effect lemmas for clean and the full build -/

theorem buildOutputs_underBuild (T : Tools) (fs : FS) :
    ∀ f ∈ buildOutputs T fs, underBuild f.path = true := by
  intro f hf
  simp only [buildOutputs, List.mem_append] at hf
  rcases hf with (((hf | hf) | hf) | hf) | hf
  · obtain ⟨a, -, rfl⟩ := List.mem_map.mp hf
    rfl
  · obtain ⟨a, -, rfl⟩ := List.mem_map.mp hf
    rfl
  · obtain ⟨a, -, rfl⟩ := List.mem_map.mp hf
    rfl
  · obtain ⟨l, hl, hfl⟩ := List.mem_flatten.mp hf
    obtain ⟨a, -, rfl⟩ := List.mem_map.mp hl
    rcases List.mem_cons.mp hfl with rfl | hfl2
    · rfl
    · rcases List.mem_cons.mp hfl2 with rfl | h3
      · rfl
      · exact absurd h3 (List.not_mem_nil f)
  · obtain ⟨l, hl, hfl⟩ := List.mem_flatten.mp hf
    obtain ⟨a, -, rfl⟩ := List.mem_map.mp hl
    rcases List.mem_cons.mp hfl with rfl | hfl2
    · rfl
    · rcases List.mem_cons.mp hfl2 with rfl | h3
      · rfl
      · exact absurd h3 (List.not_mem_nil f)

theorem cleanFs_append (a b : FS) :
    cleanFs (a ++ b) = cleanFs a ++ cleanFs b := by
  simp [cleanFs]

theorem cleanFs_idem (fs : FS) : cleanFs (cleanFs fs) = cleanFs fs := by
  simp [cleanFs, List.filter_filter, Bool.and_self]

theorem cleanFs_buildOutputs (T : Tools) (fs : FS) :
    cleanFs (buildOutputs T fs) = [] := by
  rw [cleanFs, List.filter_eq_nil_iff]
  intro f hf
  simp [buildOutputs_underBuild T fs f hf]

theorem cleanFs_buildStep (T : Tools) (fs : FS) :
    cleanFs (buildStep T fs) = cleanFs fs := by
  show cleanFs (cleanFs fs ++ buildOutputs T (cleanFs fs)) = cleanFs fs
  rw [cleanFs_append, cleanFs_idem, cleanFs_buildOutputs, List.append_nil]

/-! ## The claims -/

/-- **C2.** Every image file matched by the image glob reaches the output
image directory at its mirrored relative path after `images` settles: the
output file is present whatever the optimizer did, its contents are the
unoptimized original whenever per-file optimization failed, and no matched
file is dropped from the output (the task settles with one output per
matched input, so an individual failure fails neither the task nor a
pipeline containing it — the modelled gulp-imagemin contract absorbs
per-file failures instead of erroring the stream). -/
theorem images_best_effort (opt : Bytes → Option Bytes) (fs : FS) (f : VFile)
    (hf : f ∈ fs) (hm : globMatch imagesGlob f.path = true) :
    (⟨"build" :: "img" :: f.path.drop 2,
      imageminBestEffort opt f.contents⟩ : VFile) ∈ images opt fs ∧
    (opt f.contents = none →
      imageminBestEffort opt f.contents = f.contents) ∧
    (images opt fs).length = (srcGlob imagesGlob fs).length := by
  refine ⟨?_, ?_, by simp [images]⟩
  · exact List.mem_map_of_mem _ (List.mem_filter.mpr ⟨hf, hm⟩)
  · intro h
    simp [imageminBestEffort, h]

/-- Witness for C2: a nested image whose optimization fails still appears,
unoptimized, at the mirrored output path. -/
theorem images_best_effort_witness :
    (⟨["build", "img", "icons", "a.png"], [7]⟩ : VFile) ∈
      images (fun _ => none) [⟨["source", "img", "icons", "a.png"], [7]⟩] :=
  (images_best_effort (fun _ => none) _ _ (List.mem_cons_self _ _)
    (by decide)).1

/-- **C3.** `serve` starts the static server on the output directory and
registers exactly four watch rules, each with a 50 ms debounce delay, each
running an ordered two-task sequence ending in `reload`: templates to
(`html`, `reload`), stylesheets to (`style`, `reload`), scripts to
(`buildJs`, `reload`), images to (`images`, `reload`); the first three
fire on add/change/unlink (unlink is the remove event) and the image rule
on all events. -/
theorem serve_watch_rules :
    serve.serverRoot = "build/" ∧
    serve.rules.length = 4 ∧
    serve.rules.map WatchRule.delay = [50, 50, 50, 50] ∧
    serve.rules.map WatchRule.tasks =
      [[Task.html, Task.reload], [Task.style, Task.reload],
       [Task.buildJs, Task.reload], [Task.images, Task.reload]] ∧
    serve.rules.map WatchRule.events =
      [[WatchEvent.add, WatchEvent.change, WatchEvent.unlink],
       [WatchEvent.add, WatchEvent.change, WatchEvent.unlink],
       [WatchEvent.add, WatchEvent.change, WatchEvent.unlink],
       [WatchEvent.all]] ∧
    serve.rules.map WatchRule.globs =
      [[pagesWatchGlob, pugWatchGlob], [lessWatchGlob], [jsWatchGlob],
       [imgWatchGlob]] :=
  ⟨rfl, rfl, rfl, rfl, rfl, rfl⟩

/-- **C4.** On the stylesheet entry file, `style` writes the compiled and
vendor-prefixed but unminified result to the output css subdirectory as
`style.css`, then writes the minified copy to the same subdirectory as
`style.min.css` (the `min` suffix inserted before the extension), and
under the minifier's contract the minified byte size is at most the
unminified byte size. -/
theorem style_two_outputs (lessC vendor cssoC : Bytes → Bytes)
    (hmin : ∀ c, (cssoC c).length ≤ c.length) (c : Bytes) :
    style lessC vendor cssoC [⟨["source", "less", "style.less"], c⟩] =
      [⟨["build", "css", "style.css"], vendor (lessC c)⟩,
       ⟨["build", "css", "style.min.css"], cssoC (vendor (lessC c))⟩] ∧
    (cssoC (vendor (lessC c))).length ≤ (vendor (lessC c)).length :=
  ⟨rfl, hmin _⟩

/-- Witness for C4 with identity tool functions on a concrete stylesheet. -/
theorem style_two_outputs_witness :
    style id id id [⟨["source", "less", "style.less"], [1, 2]⟩] =
      [⟨["build", "css", "style.css"], [1, 2]⟩,
       ⟨["build", "css", "style.min.css"], [1, 2]⟩] ∧
    ([1, 2] : Bytes).length ≤ ([1, 2] : Bytes).length :=
  style_two_outputs id id id (fun _ => le_rfl) [1, 2]

/-- **C5.** On the script entry file, `buildJs` writes the bundle
unminified as `script.js` in the output js subdirectory, then the minified
copy as `script.min.js` in the same subdirectory, and `buildJs` emits no
live-reload notification, unlike `html` and `style`. -/
theorem buildJs_outputs (bundle uglifyC : Bytes → Bytes) (c : Bytes) :
    buildJs bundle uglifyC [⟨["source", "js", "script.js"], c⟩] =
      [⟨["build", "js", "script.js"], bundle c⟩,
       ⟨["build", "js", "script.min.js"], uglifyC (bundle c)⟩] ∧
    streamsToServer Task.buildJs = false ∧
    streamsToServer Task.html = true ∧
    streamsToServer Task.style = true :=
  ⟨rfl, rfl, rfl, rfl⟩

/-- Counterexample to **C6** as stated: the file `source/a.woff` matches
the claimed selection criterion (a font-file extension anywhere under the
source tree), yet `copy` selects nothing from a filesystem containing only
that file, because its glob is rooted at `source/fonts`. -/
theorem copy_anywhere_counterexample :
    specFontSelect ["source", "a.woff"] = true ∧
    copy [⟨["source", "a.woff"], [0]⟩] = [] :=
  ⟨by decide, rfl⟩

/-- **C6 (amended).** `copy` selects every file with one of the font-file
extensions woff/woff2/eot/ttf anywhere under the source fonts directory
`source/fonts`, and copies each selected file to the output tree at
exactly its path relative to the source root, with unchanged contents and
no deletion of any path. -/
theorem copy_fonts_preserves_paths (fs : FS) (f : VFile) (hf : f ∈ fs)
    (hm : globMatch fontsGlob f.path = true) :
    (⟨"build" :: f.path.drop 1, f.contents⟩ : VFile) ∈ copy fs ∧
    taskDeletes Task.copy = [] :=
  ⟨List.mem_map_of_mem _ (List.mem_filter.mpr ⟨hf, hm⟩), rfl⟩

/-- Witness for C6 (amended) on a concrete nested font file. -/
theorem copy_fonts_preserves_paths_witness :
    (⟨["build", "fonts", "sub", "a.woff"], [5]⟩ : VFile) ∈
      copy [⟨["source", "fonts", "sub", "a.woff"], [5]⟩] ∧
    taskDeletes Task.copy = [] :=
  copy_fonts_preserves_paths _ _ (List.mem_cons_self _ _) (by decide)

/-- **C7.** `clean` removes the entire output directory tree and signals
completion only once removal has finished (its success value is the
filesystem with every `build` path removed and everything else intact); a
deletion failure propagates and halts any series awaiting it; and running
`clean` when the output directory does not exist succeeds and leaves the
filesystem unchanged. -/
theorem clean_contract :
    (∀ (fs out : FS), clean none fs = Except.ok out →
      (∀ f ∈ out, underBuild f.path = false) ∧
      (∀ f ∈ fs, underBuild f.path = false → f ∈ out)) ∧
    (∀ (e : String) (fs : FS) (rest : List (FS → Except String FS)),
      runSeries (clean (some e) :: rest) fs = Except.error e) ∧
    (∀ fs : FS, (∀ f ∈ fs, underBuild f.path = false) →
      clean none fs = Except.ok fs) := by
  refine ⟨?_, ?_, ?_⟩
  · intro fs out h
    simp only [clean, Except.ok.injEq] at h
    subst h
    constructor
    · intro f hf
      have := (List.mem_filter.mp hf).2
      simpa using this
    · intro f hf hu
      exact List.mem_filter.mpr ⟨hf, by simp [hu]⟩
  · intro e fs rest
    simp [runSeries, clean]
  · intro fs h
    show Except.ok (cleanFs fs) = Except.ok fs
    exact congrArg Except.ok
      (List.filter_eq_self.mpr (fun f hf => by simp [h f hf]))

/-- Witness for C7: a populated output directory is removed while source
files survive, an error propagates through a series, and cleaning a
filesystem with no output directory is the identity. -/
theorem clean_contract_witness :
    (⟨["source", "s"], [2]⟩ : VFile) ∈
      cleanFs [⟨["build", "a.css"], [1]⟩, ⟨["source", "s"], [2]⟩] ∧
    runSeries [clean (some "EACCES")] [] = Except.error "EACCES" ∧
    clean none [⟨["source", "s"], [2]⟩] =
      Except.ok [⟨["source", "s"], [2]⟩] := by
  refine ⟨?_, clean_contract.2.1 "EACCES" [] [], clean_contract.2.2 _ ?_⟩
  · exact (clean_contract.1
      [⟨["build", "a.css"], [1]⟩, ⟨["source", "s"], [2]⟩] _ rfl).2
      ⟨["source", "s"], [2]⟩ (by simp) rfl
  · intro f hf
    rcases List.mem_cons.mp hf with rfl | h2
    · rfl
    · exact absurd h2 (List.not_mem_nil f)

/-- **C8.** Running the build pipeline twice in succession on an unchanged
source tree yields the identical filesystem — in particular byte-identical
output trees — for every choice of (deterministic) delegated tool
functions and every starting filesystem. -/
theorem build_idempotent (T : Tools) (fs : FS) :
    buildStep T (buildStep T fs) = buildStep T fs := by
  show cleanFs (buildStep T fs) ++ buildOutputs T (cleanFs (buildStep T fs))
      = buildStep T fs
  rw [cleanFs_buildStep]
  rfl

/-- **C9.** The image watch rule registered by `serve` binds the glob
`source/img/*` to the sequence (`images`, `reload`); that glob matches
top-level entries of `source/img` but no path nested deeper, so an event
on an image inside a nested subdirectory of `source/img` never triggers
the sequence — even though the `images` task's own glob matches image
files at any depth under `source/img`. -/
theorem image_watch_top_level_only :
    (∀ r, serve.rules[3]? = some r →
      r.tasks = [Task.images, Task.reload] ∧
      r.globs = [imgWatchGlob] ∧
      (∀ (x y : String) (ys : List String),
        ruleMatches r ("source" :: "img" :: x :: y :: ys) = false) ∧
      (∀ x : String, ruleMatches r ["source", "img", x] = true)) ∧
    (∀ (rest : List String) (nm : String),
      segMatch (SegPat.anyWithExt ["png", "jpg", "svg"]) nm = true →
      globMatch imagesGlob (["source", "img"] ++ rest ++ [nm]) = true) := by
  constructor
  · intro r hr
    rw [show serve.rules[3]? = some (⟨[imgWatchGlob], [WatchEvent.all], 50,
      [Task.images, Task.reload]⟩ : WatchRule) from rfl] at hr
    obtain rfl := Option.some.inj hr
    refine ⟨rfl, rfl, ?_, ?_⟩
    · intro x y ys
      simp only [ruleMatches, List.any_cons, List.any_nil, Bool.or_false]
      exact globMatch_no_globstar_short imgWatchGlob _ (by decide)
        (by simp [imgWatchGlob])
    · intro x
      simp only [ruleMatches, List.any_cons, List.any_nil, Bool.or_false]
      rw [show imgWatchGlob =
        SegPat.lit "source" :: [SegPat.lit "img", SegPat.anySeg] from rfl,
        globMatch_cons _ (by simp) _ _ _, globMatch_cons _ (by simp) _ _ _,
        globMatch_cons _ (by simp) _ _ _]
      simp only [segMatch, beq_self_eq_true, Bool.true_and]
      rfl
  · intro rest nm hs
    have h1 : globMatch [SegPat.anyWithExt ["png", "jpg", "svg"]] [nm]
        = true := by
      rw [globMatch_cons _ (by simp) _ _ _]
      simp only [hs, Bool.true_and]
      rfl
    have h2 := globMatch_globstar_skip
      [SegPat.anyWithExt ["png", "jpg", "svg"]] rest [nm] h1
    rw [show (["source", "img"] ++ rest ++ [nm] : List String)
        = "source" :: "img" :: (rest ++ [nm]) from by simp,
      show imagesGlob = SegPat.lit "source" :: SegPat.lit "img" ::
        SegPat.globstar :: [SegPat.anyWithExt ["png", "jpg", "svg"]] from rfl,
      globMatch_cons _ (by simp) _ _ _, globMatch_cons _ (by simp) _ _ _]
    simp [segMatch, h2]

/-- Witness for C9: a nested image path triggers no image watch rule yet
is matched by the `images` task's glob. -/
theorem image_watch_top_level_only_witness :
    ruleMatches ⟨[imgWatchGlob], [WatchEvent.all], 50,
      [Task.images, Task.reload]⟩ ["source", "img", "icons", "a.png"]
      = false ∧
    globMatch imagesGlob ["source", "img", "icons", "a.png"] = true := by
  constructor
  · exact (image_watch_top_level_only.1 _ rfl).2.2.1 "icons" "a.png" []
  · exact image_watch_top_level_only.2 ["icons"] "a.png" (by decide)

/-- **C10.** The template watch rule registered by `serve` watches both
the top-level page templates (`source/pages/**/*.pug`) and the reusable
pug sources (`source/pug/**/*.pug`) and triggers the sequence (`html`,
`reload`); every event on a `.pug` file anywhere under `source/pug`
matches the rule; the `html` task's input set consists exactly of the
top-level `source/pages/*.pug` files; and a run of `html` recompiles
every such top-level page. -/
theorem template_watch_covers_includes :
    (∀ r, serve.rules[0]? = some r →
      r.globs = [pagesWatchGlob, pugWatchGlob] ∧
      r.tasks = [Task.html, Task.reload] ∧
      (∀ (rest : List String) (nm : String), strEndsWith ".pug" nm = true →
        ruleMatches r (["source", "pug"] ++ rest ++ [nm]) = true)) ∧
    (∀ (fs : FS) (f : VFile), f ∈ srcGlob pagesGlob fs →
      ∃ nm, f.path = ["source", "pages", nm] ∧
        strEndsWith ".pug" nm = true) ∧
    (∀ (pugC pretty : Bytes → Bytes) (fs : FS) (f : VFile), f ∈ fs →
      globMatch pagesGlob f.path = true →
      (⟨"build" :: (mapLast (setExt "html") f.path).drop 2,
        pretty (pugC f.contents)⟩ : VFile) ∈ html pugC pretty fs) := by
  refine ⟨?_, ?_, ?_⟩
  · intro r hr
    rw [show serve.rules[0]? = some (⟨[pagesWatchGlob, pugWatchGlob],
      [WatchEvent.add, WatchEvent.change, WatchEvent.unlink], 50,
      [Task.html, Task.reload]⟩ : WatchRule) from rfl] at hr
    obtain rfl := Option.some.inj hr
    refine ⟨rfl, rfl, ?_⟩
    intro rest nm hnm
    simp only [ruleMatches, List.any_cons, List.any_nil, Bool.or_false]
    have h1 : globMatch [SegPat.anyWithExt ["pug"]] [nm] = true := by
      rw [globMatch_cons _ (by simp) _ _ _]
      simp only [segMatch, List.any_cons, List.any_nil, Bool.or_false]
      rw [show ("." ++ "pug" : String) = ".pug" from rfl, hnm]
      rfl
    have h2 := globMatch_globstar_skip [SegPat.anyWithExt ["pug"]] rest [nm] h1
    rw [show (["source", "pug"] ++ rest ++ [nm] : List String)
        = "source" :: "pug" :: (rest ++ [nm]) from by simp,
      show pugWatchGlob = SegPat.lit "source" :: SegPat.lit "pug" ::
        SegPat.globstar :: [SegPat.anyWithExt ["pug"]] from rfl,
      globMatch_cons _ (by simp) _ _ _, globMatch_cons _ (by simp) _ _ _]
    simp [segMatch, h2]
  · intro fs f hf
    exact pagesGlob_shape f.path (List.mem_filter.mp hf).2
  · intro pugC pretty fs f hf hm
    exact List.mem_map_of_mem _ (List.mem_filter.mpr ⟨hf, hm⟩)

/-- Witness for C10: an event on a nested pug include matches the
template watch rule, and a top-level page is compiled by `html`. -/
theorem template_watch_covers_includes_witness :
    ruleMatches ⟨[pagesWatchGlob, pugWatchGlob],
      [WatchEvent.add, WatchEvent.change, WatchEvent.unlink], 50,
      [Task.html, Task.reload]⟩ ["source", "pug", "blocks", "header.pug"]
      = true ∧
    (⟨["build", "index.html"], [3]⟩ : VFile) ∈
      html id id [⟨["source", "pages", "index.pug"], [3]⟩] := by
  constructor
  · exact (template_watch_covers_includes.1 _ rfl).2.2 ["blocks"]
      "header.pug" (by decide)
  · exact template_watch_covers_includes.2.2 id id _ _
      (List.mem_cons_self _ _) (by decide)

end Gulpfile
